import Mathlib

/-!
Verification of the file-system persistence layer of a link-checking
service.  The Go source (package `filesystem`) stores records as
newline-delimited JSON in a main record log and a staging log.  Files are
modelled as byte lists (`List Nat`, each entry a byte value).  The
`domain.Record` type and its JSON wire format are not part of the given
sources; they are modelled from the spec's line format
`{"id": <integer>, "links": {<url string>: <status string>, ...}}`.
All definitions are executable.
-/

/-- A record, modelled from the spec: identifier (64-bit integer, modelled
as `Int`; no arithmetic is performed on it) and a link map from URL to
status.  Go's `map[string]string` is represented as an association list of
byte strings in encoding order; a Go map value corresponds to the list
sorted by key, but none of the statements below need that restriction. -/
structure Record where
  ID : Int
  Links : List (List Nat × List Nat)
deriving DecidableEq, Repr

/-- JSON whitespace bytes: space, tab, newline, carriage return. -/
def isWS (b : Nat) : Bool :=
  b = 32 || b = 9 || b = 10 || b = 13

/-- Drop leading JSON whitespace. -/
def skipWS : List Nat → List Nat
  | [] => []
  | b :: bs => if isWS b then skipWS bs else b :: bs

/-- Consume an expected literal byte sequence, returning the remainder. -/
def dropLit : List Nat → List Nat → Option (List Nat)
  | [], l => some l
  | _ :: _, [] => none
  | c :: cs, b :: bs => if b = c then dropLit cs bs else none

/-- Value of a hexadecimal digit byte. -/
def hexVal (b : Nat) : Option Nat :=
  if 48 ≤ b ∧ b ≤ 57 then some (b - 48)
  else if 97 ≤ b ∧ b ≤ 102 then some (b - 87)
  else if 65 ≤ b ∧ b ≤ 70 then some (b - 55)
  else none

/-- Lower-case hexadecimal digit byte for a value below 16. -/
def hexDigitChar (n : Nat) : Nat :=
  if n < 10 then 48 + n else 87 + n

/-- UTF-8 encoding of a code point (code points from `\uXXXX` escapes). -/
def utf8Encode (c : Nat) : List Nat :=
  if c < 128 then [c]
  else if c < 2048 then [192 + c / 64, 128 + c % 64]
  else [224 + c / 4096, 128 + c / 64 % 64, 128 + c % 64]

/-- Meaning of a single-character JSON string escape `\c`. -/
def escChar (e : Nat) : Option Nat :=
  if e = 34 then some 34
  else if e = 92 then some 92
  else if e = 47 then some 47
  else if e = 98 then some 8
  else if e = 102 then some 12
  else if e = 110 then some 10
  else if e = 114 then some 13
  else if e = 116 then some 9
  else none

/-- Parse the body of a JSON string after the opening quote; returns the
decoded bytes and the remainder after the closing quote.  Raw control
bytes are rejected, as Go's decoder rejects them. -/
def parseStr : List Nat → Option (List Nat × List Nat)
  | [] => none
  | b :: bs =>
    if b = 34 then some ([], bs)
    else if b = 92 then
      match bs with
      | [] => none
      | e :: bs2 =>
        if e = 117 then
          match bs2 with
          | h1 :: h2 :: h3 :: h4 :: bs3 =>
            match hexVal h1, hexVal h2, hexVal h3, hexVal h4 with
            | some x1, some x2, some x3, some x4 =>
              match parseStr bs3 with
              | some (s, r) => some (utf8Encode (((x1 * 16 + x2) * 16 + x3) * 16 + x4) ++ s, r)
              | none => none
            | _, _, _, _ => none
          | _ => none
        else
          match escChar e with
          | some c =>
            match parseStr bs2 with
            | some (s, r) => some (c :: s, r)
            | none => none
          | none => none
    else if b < 32 then none
    else
      match parseStr bs with
      | some (s, r) => some (b :: s, r)
      | none => none

/-- Greedily parse decimal digits, folding them onto an accumulator. -/
def parseDigits : List Nat → Nat → Nat × List Nat
  | [], acc => (acc, [])
  | b :: bs, acc =>
    if 48 ≤ b ∧ b ≤ 57 then parseDigits bs (acc * 10 + (b - 48))
    else (acc, b :: bs)

/-- Parse a JSON integer (optional minus sign followed by digits). -/
def parseInt (l : List Nat) : Option (Int × List Nat) :=
  match l with
  | [] => none
  | b :: bs =>
    if b = 45 then
      match bs with
      | [] => none
      | d :: _ =>
        if 48 ≤ d ∧ d ≤ 57 then
          let p := parseDigits bs 0
          some (-(p.1 : Int), p.2)
        else none
    else if 48 ≤ b ∧ b ≤ 57 then
      let p := parseDigits l 0
      some ((p.1 : Int), p.2)
    else none

/-- Decimal byte representation of a natural number. -/
def encodeNat (n : Nat) : List Nat :=
  if n = 0 then [48] else (Nat.digits 10 n).reverse.map (· + 48)

/-- Decimal byte representation of an integer. -/
def encodeInt (i : Int) : List Nat :=
  if i < 0 then 45 :: encodeNat i.natAbs else encodeNat i.toNat

/-- JSON escape of one byte of a Go string, as Go's encoder emits it:
quote and backslash get a backslash escape, newline, carriage return and
tab get their short escapes, the HTML-sensitive bytes and the remaining
control bytes get a `\u00XX` escape, and everything else passes through. -/
def escByte (b : Nat) : List Nat :=
  if b = 34 then [92, 34]
  else if b = 92 then [92, 92]
  else if b = 10 then [92, 110]
  else if b = 13 then [92, 114]
  else if b = 9 then [92, 116]
  else if b = 60 ∨ b = 62 ∨ b = 38 ∨ b < 32 then
    [92, 117, 48, 48, hexDigitChar (b / 16), hexDigitChar (b % 16)]
  else [b]

/-- JSON escape of a whole byte string. -/
def escBytes (s : List Nat) : List Nat :=
  s.flatMap escByte

/-- Encoding of one `"key":"value"` pair of the link map. -/
def encodePair (k v : List Nat) : List Nat :=
  34 :: (escBytes k ++ 34 :: 58 :: 34 :: (escBytes v ++ [34]))

/-- Comma-separated encoding of the link-map pairs. -/
def encodePairs : List (List Nat × List Nat) → List Nat
  | [] => []
  | [(k, v)] => encodePair k v
  | (k, v) :: ps => encodePair k v ++ 44 :: encodePairs ps

/-- Encoding of the link map as a JSON object. -/
def encodeLinks (m : List (List Nat × List Nat)) : List Nat :=
  123 :: (encodePairs m ++ [125])

/-- JSON line encoding of a record, modelled from the spec line format
`{"id": <integer>, "links": {...}}` (without the trailing newline). -/
def encodeRecord (r : Record) : List Nat :=
  123 :: 34 :: 105 :: 100 :: 34 :: 58 ::
    (encodeInt r.ID ++
      44 :: 34 :: 108 :: 105 :: 110 :: 107 :: 115 :: 34 :: 58 ::
        (encodeLinks r.Links ++ [125]))

/-- Parse the pairs of a JSON string-to-string object after the opening
brace, for a non-empty object; fuel bounds the recursion and is
instantiated with the input length, which each iteration exceeds. -/
def parsePairs : Nat → List Nat → Option (List (List Nat × List Nat) × List Nat)
  | 0, _ => none
  | fuel + 1, l =>
    match dropLit [34] l with
    | none => none
    | some l1 =>
      match parseStr l1 with
      | none => none
      | some (k, l2) =>
        match dropLit [58] (skipWS l2) with
        | none => none
        | some l4 =>
          match dropLit [34] (skipWS l4) with
          | none => none
          | some l5 =>
            match parseStr l5 with
            | none => none
            | some (v, l6) =>
              match skipWS l6 with
              | 44 :: l7 =>
                match parsePairs fuel (skipWS l7) with
                | none => none
                | some (ps, l8) => some ((k, v) :: ps, l8)
              | 125 :: l7 => some ([(k, v)], l7)
              | _ => none

/-- Parse a JSON string-to-string object. -/
def parseLinks (l : List Nat) : Option (List (List Nat × List Nat) × List Nat) :=
  match dropLit [123] l with
  | none => none
  | some l1 =>
    match skipWS l1 with
    | 125 :: r => some ([], r)
    | l2 => parsePairs (l2.length + 1) l2

/-- Parse one record value in the spec's line format, returning the
record and the unconsumed remainder. -/
def parseRecordVal (l : List Nat) : Option (Record × List Nat) :=
  match dropLit [123] l with
  | none => none
  | some l1 =>
    match dropLit [34, 105, 100, 34] (skipWS l1) with
    | none => none
    | some l2 =>
      match dropLit [58] (skipWS l2) with
      | none => none
      | some l3 =>
        match parseInt (skipWS l3) with
        | none => none
        | some (i, l4) =>
          match dropLit [44] (skipWS l4) with
          | none => none
          | some l5 =>
            match dropLit [34, 108, 105, 110, 107, 115, 34] (skipWS l5) with
            | none => none
            | some l6 =>
              match dropLit [58] (skipWS l6) with
              | none => none
              | some l7 =>
                match parseLinks (skipWS l7) with
                | none => none
                | some (m, l8) =>
                  match dropLit [125] (skipWS l8) with
                  | none => none
                  | some l9 => some ({ ID := i, Links := m }, l9)

/-- Decode one whole byte string as a record, tolerating surrounding
whitespace, as Go's `json.Unmarshal` does. -/
def unmarshal (l : List Nat) : Option Record :=
  match parseRecordVal (skipWS l) with
  | none => none
  | some (r, rest) => if skipWS rest = [] then some r else none

/-- Streaming decode of every JSON record value in a byte string, as
`LoadTempRecords` drives Go's `json.Decoder`: skip whitespace, stop
cleanly at end of input, fail on the first value that does not parse.
Fuel bounds the recursion and is instantiated with the input length,
which each decoded value exceeds. -/
def decodeAllAux : Nat → List Nat → Option (List Record)
  | 0, _ => none
  | fuel + 1, l =>
    if skipWS l = [] then some []
    else
      match parseRecordVal (skipWS l) with
      | none => none
      | some (r, rest) =>
        match decodeAllAux fuel rest with
        | none => none
        | some rs => some (r :: rs)

/-- Streaming decode of a whole file. -/
def decodeAll (l : List Nat) : Option (List Record) :=
  decodeAllAux (l.length + 1) l

/-- The byte content produced by appending each record's JSON line (record
encoding followed by a newline), as successive `SaveRecord` calls do. -/
def joinEnc : List Record → List Nat
  | [] => []
  | r :: rs => encodeRecord r ++ 10 :: joinEnc rs

/-- Drop a trailing carriage return from a scanned line, as
`bufio.ScanLines` does. -/
def stripCR (l : List Nat) : List Nat :=
  if l.getLast? = some 13 then l.dropLast else l

/-- Split a byte string at newlines, accumulating the current line in
reverse; a final segment without a trailing newline is still produced,
and a trailing newline produces no empty final segment, matching
`bufio.Scanner` with `ScanLines`. -/
def splitLinesAux : List Nat → List Nat → List (List Nat)
  | [], acc => if acc.isEmpty then [] else [acc.reverse]
  | b :: rest, acc =>
    if b = 10 then acc.reverse :: splitLinesAux rest []
    else splitLinesAux rest (b :: acc)

/-- The raw newline-delimited segments of a file. -/
def splitLines (l : List Nat) : List (List Nat) :=
  splitLinesAux l []

/-- The tokens `bufio.Scanner` yields: newline-delimited segments with a
trailing carriage return stripped. -/
def scanTokens (l : List Nat) : List (List Nat) :=
  (splitLines l).map stripCR

/-- The scan loop of `GetRecord`: decode each token, skip tokens that
fail to decode, and return the first decoded record whose ID matches. -/
def findRecord (id : Int) : List (List Nat) → Option Record
  | [] => none
  | t :: ts =>
    match unmarshal t with
    | none => findRecord id ts
    | some rec => if rec.ID = id then some rec else findRecord id ts

/-- The file state of the storage: the byte contents of the main record
log (`s.path`) and of the staging log (`s.tempPath`). -/
structure FS where
  main : List Nat
  temp : List Nat
deriving DecidableEq, Repr

/-- `Storage.SaveRecord`: append the record's JSON line to the main log
(file-state effect of the happy path; open and write errors are I/O
conditions outside the model). -/
def SaveRecord (s : FS) (record : Record) : FS :=
  { s with main := s.main ++ encodeRecord record ++ [10] }

/-- `Storage.SaveTempRecord`: append the record's JSON line to the
staging log. -/
def SaveTempRecord (s : FS) (record : Record) : FS :=
  { s with temp := s.temp ++ encodeRecord record ++ [10] }

/-- `Storage.LoadTempRecords`: stream-decode every record of the staging
log; `none` models the error return on the first undecodable value. -/
def LoadTempRecords (s : FS) : Option (List Record) :=
  decodeAll s.temp

/-- The error `GetRecord` can return on the happy I/O path. -/
inductive GetError where
  | notFound (id : Int)
deriving DecidableEq, Repr

/-- `Storage.GetRecord`: scan the main log line by line, skip lines that
fail to decode, return the first record whose ID matches, and fail with
a not-found error after a full scan without a match. -/
def GetRecord (s : FS) (id : Int) : Except GetError Record :=
  match findRecord id (scanTokens s.main) with
  | some rec => Except.ok rec
  | none => Except.error (GetError.notFound id)

/-- `Storage.ClearTempFile`: truncate the staging log to zero length. -/
def ClearTempFile (s : FS) : FS :=
  { s with temp := [] }

/-- Which of the I/O calls made by `LoadLastLinksNum` fail: opening the
file, statting it, and the single-byte `ReadAt` at each position. -/
structure FsOracle where
  openFails : Bool
  statFails : Bool
  readFails : Nat → Bool

/-- The oracle under which every I/O call succeeds. -/
def okFs : FsOracle :=
  { openFails := false, statFails := false, readFails := fun _ => false }

/-- The backward byte scan of `LoadLastLinksNum`: the argument `p`
stands for position `p - 1`; read the byte there (`none` on a failed
read), stop before accumulating when it is a newline not at the final
position `size - 1`, otherwise prepend it and step left. -/
def scanBackAux (rf : Nat → Bool) (l : List Nat) (size : Nat) : Nat → List Nat → Option (List Nat)
  | 0, acc => some acc
  | p + 1, acc =>
    if rf p then none
    else
      let b := l.getD p 0
      if b = 10 ∧ p + 1 ≠ size then some acc
      else scanBackAux rf l size p (b :: acc)

/-- The backward byte scan when no read fails. -/
def scanBackP (l : List Nat) (size : Nat) : Nat → List Nat → List Nat
  | 0, acc => acc
  | p + 1, acc =>
    let b := l.getD p 0
    if b = 10 ∧ p + 1 ≠ size then acc
    else scanBackP l size p (b :: acc)

/-- The number of `ReadAt` calls the backward scan performs when started
at argument `p` (position `p - 1`): one per loop iteration, including
the iteration that stops at a newline. -/
def scanReadsAux (l : List Nat) (size : Nat) : Nat → Nat
  | 0 => 0
  | p + 1 =>
    let b := l.getD p 0
    if b = 10 ∧ p + 1 ≠ size then 1
    else 1 + scanReadsAux l size p

/-- `Storage.LoadLastLinksNum` with explicit I/O failures: return 0 when
the open fails, when the stat fails, when the file is empty, when a read
fails, or when the accumulated last line does not decode; otherwise
return the decoded record's ID. -/
def LoadLastLinksNumFrom (orc : FsOracle) (s : FS) : Int :=
  if orc.openFails then 0
  else if orc.statFails then 0
  else if s.main.length = 0 then 0
  else
    match scanBackAux orc.readFails s.main s.main.length s.main.length [] with
    | none => 0
    | some lastLine =>
      match unmarshal lastLine with
      | none => 0
      | some rec => rec.ID

/-- `Storage.LoadLastLinksNum` on the happy I/O path. -/
def LoadLastLinksNum (s : FS) : Int :=
  LoadLastLinksNumFrom okFs s

/-- The operations of the persistence facade. -/
inductive Op where
  | save (r : Record)
  | stage (r : Record)
  | loadStaged
  | clearStaged
  | get (id : Int)
  | recoverLastId
deriving DecidableEq, Repr

/-- File-state effect of one facade operation: the three read-only
operations leave both files unchanged. -/
def applyOp (s : FS) : Op → FS
  | Op.save r => SaveRecord s r
  | Op.stage r => SaveTempRecord s r
  | Op.loadStaged => s
  | Op.clearStaged => ClearTempFile s
  | Op.get _ => s
  | Op.recoverLastId => s

/-- The records saved to the main log by a sequence of operations. -/
def savesOf (ops : List Op) : List Record :=
  ops.filterMap fun o =>
    match o with
    | Op.save r => some r
    | _ => none

/-- Whether an operation is a `save` or a `get`. -/
def isSaveOrGet : Op → Bool
  | Op.save _ => true
  | Op.get _ => true
  | _ => false

/-- Modelled from the spec: the last line of a file is the suffix after
the last newline that is not the file's final byte, together with that
final byte (spec of `recover_last_id`'s accumulator). -/
def afterLastNewline (l : List Nat) : List Nat :=
  l.foldl (fun acc b => if b = 10 then [] else acc ++ [b]) []

/-- Modelled from the spec: the accumulated bytes of the tail scan. -/
def lastLineSpec (l : List Nat) : List Nat :=
  afterLastNewline l.dropLast ++ l.drop (l.length - 1)

/-- Modelled from the spec: `recover_last_id` returns 0 on an empty log
and otherwise decodes the last line and returns its ID (0 when the
decode fails). -/
def recoverLastIdSpec (l : List Nat) : Int :=
  if l.length = 0 then 0
  else
    match unmarshal (lastLineSpec l) with
    | none => 0
    | some rec => rec.ID

/-- The records of the decodable lines of a file, in file order. -/
def linesDecoded (l : List Nat) : List Record :=
  (scanTokens l).filterMap unmarshal

/-- A byte list whose head, if any, is not a decimal digit; the greedy
digit parser stops exactly at such a remainder. -/
def headNotDigit : List Nat → Prop
  | [] => True
  | b :: _ => ¬(48 ≤ b ∧ b ≤ 57)

theorem skipWS_not {b : Nat} {l : List Nat} (hb : isWS b = false) :
    skipWS (b :: l) = b :: l := by
  simp [skipWS, hb]

theorem skipWS_ws {b : Nat} {l : List Nat} (hb : isWS b = true) :
    skipWS (b :: l) = skipWS l := by
  simp [skipWS, hb]

theorem skipWS_length (l : List Nat) : (skipWS l).length ≤ l.length := by
  induction l with
  | nil => simp [skipWS]
  | cons b bs ih =>
    by_cases hb : isWS b = true
    · rw [skipWS_ws hb]; simp; omega
    · rw [skipWS_not (by simpa using hb)]

theorem skipWS_idem (l : List Nat) : skipWS (skipWS l) = skipWS l := by
  induction l with
  | nil => rfl
  | cons b bs ih =>
    by_cases hb : isWS b = true
    · rw [skipWS_ws hb, ih]
    · rw [skipWS_not (by simpa using hb), skipWS_not (by simpa using hb)]

theorem skipWS_nil_append {l x : List Nat} (h : skipWS l = []) :
    skipWS (l ++ x) = skipWS x := by
  induction l with
  | nil => rfl
  | cons b bs ih =>
    by_cases hb : isWS b = true
    · rw [skipWS_ws hb] at h
      rw [List.cons_append, skipWS_ws hb, ih h]
    · rw [skipWS_not (by simpa using hb)] at h
      exact absurd h (by simp)

theorem dropLit_append (cs rest : List Nat) : dropLit cs (cs ++ rest) = some rest := by
  induction cs with
  | nil => rfl
  | cons c cs ih => simp [dropLit, ih]

theorem hexVal_hexDigitChar {x : Nat} (hx : x < 16) :
    hexVal (hexDigitChar x) = some x := by
  rcases Nat.lt_or_ge x 10 with h | h
  · have hc : hexDigitChar x = 48 + x := by unfold hexDigitChar; rw [if_pos h]
    rw [hc]
    unfold hexVal
    rw [if_pos (by omega)]
    congr 1
    omega
  · have hc : hexDigitChar x = 87 + x := by unfold hexDigitChar; rw [if_neg (by omega)]
    rw [hc]
    unfold hexVal
    rw [if_neg (by omega), if_pos (by omega)]
    congr 1
    omega

theorem utf8Encode_small {c : Nat} (hc : c < 128) : utf8Encode c = [c] := by
  simp [utf8Encode, hc]

theorem hexDigitChar_ne_ten (x : Nat) : hexDigitChar x ≠ 10 := by
  unfold hexDigitChar
  split <;> omega

theorem escByte_ne_ten (b : Nat) : 10 ∉ escByte b := by
  have hd1 : 10 ≠ hexDigitChar (b / 16) := fun h => hexDigitChar_ne_ten _ h.symm
  have hd2 : 10 ≠ hexDigitChar (b % 16) := fun h => hexDigitChar_ne_ten _ h.symm
  unfold escByte
  split_ifs with h1 h2 h3 h4 h5 h6 <;> simp_all <;> omega

theorem escBytes_ne_ten (s : List Nat) : 10 ∉ escBytes s := by
  intro h
  simp only [escBytes, List.mem_flatMap] at h
  obtain ⟨b, _, hmem⟩ := h
  exact escByte_ne_ten b hmem

theorem encodeNat_digits {n d : Nat} (h : d ∈ encodeNat n) : 48 ≤ d ∧ d ≤ 57 := by
  unfold encodeNat at h
  split at h
  · simp at h
    omega
  · simp only [List.mem_map, List.mem_reverse] at h
    obtain ⟨x, hx, hxd⟩ := h
    have := Nat.digits_lt_base (by norm_num) hx
    omega

theorem encodeNat_ne_nil (n : Nat) : encodeNat n ≠ [] := by
  unfold encodeNat
  split
  · simp
  · next h =>
    intro hc
    simp at hc
    exact (Nat.digits_ne_nil_iff_ne_zero.mpr h) hc

theorem encodeInt_mem {i : Int} {d : Nat} (h : d ∈ encodeInt i) :
    d = 45 ∨ (48 ≤ d ∧ d ≤ 57) := by
  unfold encodeInt at h
  split at h
  · rcases List.mem_cons.mp h with h | h
    · left; exact h
    · right; exact encodeNat_digits h
  · right; exact encodeNat_digits h

theorem encodeInt_ne_ten (i : Int) : 10 ∉ encodeInt i := by
  intro h
  rcases encodeInt_mem h with h | h <;> omega


theorem parseStr_quote (bs : List Nat) : parseStr (34 :: bs) = some ([], bs) := by
  rw [parseStr.eq_def]
  simp

theorem parseStr_esc1 {e : Nat} (he : e ≠ 117) (bs : List Nat) :
    parseStr (92 :: e :: bs) =
      (match escChar e with
       | some c =>
         match parseStr bs with
         | some (s, r) => some (c :: s, r)
         | none => none
       | none => none) := by
  rw [parseStr.eq_def]
  simp [he]

theorem parseStr_hex (h1 h2 h3 h4 : Nat) (bs : List Nat) :
    parseStr (92 :: 117 :: h1 :: h2 :: h3 :: h4 :: bs) =
      (match hexVal h1, hexVal h2, hexVal h3, hexVal h4 with
       | some x1, some x2, some x3, some x4 =>
         match parseStr bs with
         | some (s, r) => some (utf8Encode (((x1 * 16 + x2) * 16 + x3) * 16 + x4) ++ s, r)
         | none => none
       | _, _, _, _ => none) := by
  rw [parseStr.eq_def]
  simp

theorem parseStr_plain {b : Nat} (hb1 : b ≠ 34) (hb2 : b ≠ 92) (hb3 : ¬b < 32) (bs : List Nat) :
    parseStr (b :: bs) =
      (match parseStr bs with
       | some (s, r) => some (b :: s, r)
       | none => none) := by
  rw [parseStr.eq_def]
  simp [hb1, hb2, hb3]

theorem parseStr_esc (s rest : List Nat) :
    parseStr (escBytes s ++ 34 :: rest) = some (s, rest) := by
  induction s with
  | nil =>
    rw [show escBytes [] ++ 34 :: rest = 34 :: rest by simp [escBytes]]
    exact parseStr_quote rest
  | cons b s ih =>
    rw [show escBytes (b :: s) ++ 34 :: rest = escByte b ++ (escBytes s ++ 34 :: rest) by
      simp [escBytes]]
    unfold escByte
    by_cases h1 : b = 34
    · rw [if_pos h1, h1]
      rw [show [92, 34] ++ (escBytes s ++ 34 :: rest) = 92 :: 34 :: (escBytes s ++ 34 :: rest)
        by simp]
      rw [parseStr_esc1 (by omega), ih]
      simp [escChar]
    · rw [if_neg h1]
      by_cases h2 : b = 92
      · rw [if_pos h2, h2]
        rw [show [92, 92] ++ (escBytes s ++ 34 :: rest) = 92 :: 92 :: (escBytes s ++ 34 :: rest)
          by simp]
        rw [parseStr_esc1 (by omega), ih]
        simp [escChar]
      · rw [if_neg h2]
        by_cases h3 : b = 10
        · rw [if_pos h3, h3]
          rw [show [92, 110] ++ (escBytes s ++ 34 :: rest) = 92 :: 110 :: (escBytes s ++ 34 :: rest)
            by simp]
          rw [parseStr_esc1 (by omega), ih]
          simp [escChar]
        · rw [if_neg h3]
          by_cases h4 : b = 13
          · rw [if_pos h4, h4]
            rw [show [92, 114] ++ (escBytes s ++ 34 :: rest) =
              92 :: 114 :: (escBytes s ++ 34 :: rest) by simp]
            rw [parseStr_esc1 (by omega), ih]
            simp [escChar]
          · rw [if_neg h4]
            by_cases h5 : b = 9
            · rw [if_pos h5, h5]
              rw [show [92, 116] ++ (escBytes s ++ 34 :: rest) =
                92 :: 116 :: (escBytes s ++ 34 :: rest) by simp]
              rw [parseStr_esc1 (by omega), ih]
              simp [escChar]
            · rw [if_neg h5]
              by_cases h6 : b = 60 ∨ b = 62 ∨ b = 38 ∨ b < 32
              · rw [if_pos h6]
                rw [show [92, 117, 48, 48, hexDigitChar (b / 16), hexDigitChar (b % 16)] ++
                    (escBytes s ++ 34 :: rest) =
                    92 :: 117 :: 48 :: 48 :: hexDigitChar (b / 16) :: hexDigitChar (b % 16) ::
                    (escBytes s ++ 34 :: rest) by simp]
                rw [parseStr_hex]
                rw [show hexVal 48 = some 0 by rfl]
                rw [hexVal_hexDigitChar (by omega : b / 16 < 16),
                  hexVal_hexDigitChar (by omega : b % 16 < 16)]
                rw [ih]
                show some (utf8Encode (((0 * 16 + 0) * 16 + b / 16) * 16 + b % 16) ++ s, rest) =
                  some (b :: s, rest)
                rw [show ((0 * 16 + 0) * 16 + b / 16) * 16 + b % 16 = b by omega]
                rw [utf8Encode_small (by omega : b < 128)]
                simp
              · rw [if_neg h6]
                rw [show [b] ++ (escBytes s ++ 34 :: rest) = b :: (escBytes s ++ 34 :: rest)
                  by simp]
                rw [parseStr_plain h1 h2 (by omega), ih]

theorem parseDigits_stop {rest : List Nat} (hr : headNotDigit rest) (acc : Nat) :
    parseDigits rest acc = (acc, rest) := by
  cases rest with
  | nil => rfl
  | cons b bs =>
    simp only [headNotDigit] at hr
    simp [parseDigits, hr]

theorem parseDigits_run {ds : List Nat} (hds : ∀ d ∈ ds, 48 ≤ d ∧ d ≤ 57)
    (rest : List Nat) (acc : Nat) :
    parseDigits (ds ++ rest) acc =
      parseDigits rest (ds.foldl (fun a d => a * 10 + (d - 48)) acc) := by
  induction ds generalizing acc with
  | nil => simp
  | cons d ds ih =>
    have hd := hds d (List.mem_cons_self d ds)
    simp only [List.cons_append, parseDigits, if_pos hd]
    rw [List.foldl_cons]
    exact ih (fun x hx => hds x (List.mem_cons_of_mem d hx)) (acc * 10 + (d - 48))

theorem foldl_reverse_digits (l : List Nat) (acc : Nat) :
    (l.reverse).foldl (fun a d => a * 10 + d) acc = acc * 10 ^ l.length + Nat.ofDigits 10 l := by
  induction l generalizing acc with
  | nil => simp [Nat.ofDigits_nil]
  | cons d t ih =>
    rw [List.reverse_cons, List.foldl_append, ih]
    simp only [List.foldl_cons, List.foldl_nil, Nat.ofDigits_cons, List.length_cons]
    ring

theorem encodeNat_foldl (n : Nat) :
    (encodeNat n).foldl (fun a d => a * 10 + (d - 48)) 0 = n := by
  by_cases h : n = 0
  · subst h
    simp [encodeNat]
  · rw [show encodeNat n = (Nat.digits 10 n).reverse.map (· + 48) by simp [encodeNat, h]]
    rw [List.foldl_map]
    rw [show (fun (x y : Nat) => x * 10 + (y + 48 - 48)) = (fun (x y : Nat) => x * 10 + y) by
      funext x y; omega]
    rw [foldl_reverse_digits]
    simp [Nat.ofDigits_digits]

theorem encodeNat_cons (n : Nat) :
    ∃ d ds, encodeNat n = d :: ds ∧ 48 ≤ d ∧ d ≤ 57 := by
  rcases h : encodeNat n with _ | ⟨d, ds⟩
  · exact absurd h (encodeNat_ne_nil n)
  · refine ⟨d, ds, rfl, ?_⟩
    have hmem : d ∈ encodeNat n := by
      rw [h]
      exact List.mem_cons_self d ds
    exact encodeNat_digits hmem

theorem encodeInt_cons (i : Int) :
    ∃ d ds, encodeInt i = d :: ds ∧ (d = 45 ∨ (48 ≤ d ∧ d ≤ 57)) := by
  unfold encodeInt
  split
  · exact ⟨45, encodeNat i.natAbs, rfl, Or.inl rfl⟩
  · obtain ⟨d, ds, h, hd⟩ := encodeNat_cons i.toNat
    exact ⟨d, ds, h, Or.inr hd⟩

theorem parseInt_encode (i : Int) {rest : List Nat} (hr : headNotDigit rest) :
    parseInt (encodeInt i ++ rest) = some (i, rest) := by
  by_cases hneg : i < 0
  · obtain ⟨d, ds, h, hd⟩ := encodeNat_cons i.natAbs
    have hds : ∀ x ∈ encodeNat i.natAbs, 48 ≤ x ∧ x ≤ 57 := fun x hx => encodeNat_digits hx
    rw [show encodeInt i = 45 :: encodeNat i.natAbs by simp [encodeInt, hneg]]
    rw [List.cons_append, h, List.cons_append]
    simp only [parseInt, if_pos rfl, if_pos hd]
    rw [show d :: (ds ++ rest) = (d :: ds) ++ rest by simp, ← h,
      parseDigits_run hds rest 0, parseDigits_stop hr, encodeNat_foldl]
    have hcast : -((i.natAbs : Nat) : Int) = i := by omega
    rw [hcast]
    simp
  · obtain ⟨d, ds, h, hd⟩ := encodeNat_cons i.toNat
    have hds : ∀ x ∈ encodeNat i.toNat, 48 ≤ x ∧ x ≤ 57 := fun x hx => encodeNat_digits hx
    rw [show encodeInt i = encodeNat i.toNat by simp [encodeInt, hneg]]
    rw [h, List.cons_append]
    simp only [parseInt]
    rw [if_neg (by omega : ¬d = 45), if_pos hd]
    rw [show d :: (ds ++ rest) = (d :: ds) ++ rest by simp, ← h,
      parseDigits_run hds rest 0, parseDigits_stop hr, encodeNat_foldl]
    have hcast : ((i.toNat : Nat) : Int) = i := by omega
    rw [hcast]

theorem skipWS_ge {b : Nat} (hb : 33 ≤ b) (X : List Nat) : skipWS (b :: X) = b :: X := by
  apply skipWS_not
  simp [isWS]
  omega

theorem dropLit_one (c : Nat) (X : List Nat) : dropLit [c] (c :: X) = some X := by
  simpa using dropLit_append [c] X

theorem dropLit_idlit (X : List Nat) :
    dropLit [34, 105, 100, 34] (34 :: 105 :: 100 :: 34 :: X) = some X := by
  simpa using dropLit_append [34, 105, 100, 34] X

theorem dropLit_linkslit (X : List Nat) :
    dropLit [34, 108, 105, 110, 107, 115, 34]
      (34 :: 108 :: 105 :: 110 :: 107 :: 115 :: 34 :: X) = some X := by
  simpa using dropLit_append [34, 108, 105, 110, 107, 115, 34] X

theorem encodePairs_head (p : List Nat × List Nat) (ps : List (List Nat × List Nat)) :
    ∃ t, encodePairs (p :: ps) = 34 :: t := by
  rcases p with ⟨k, v⟩
  cases ps with
  | nil => exact ⟨escBytes k ++ 34 :: 58 :: 34 :: (escBytes v ++ [34]), by
      simp [encodePairs, encodePair]⟩
  | cons p2 ps =>
    exact ⟨(escBytes k ++ 34 :: 58 :: 34 :: (escBytes v ++ [34])) ++
      44 :: encodePairs (p2 :: ps), by simp [encodePairs, encodePair]⟩

theorem encodePairs_length (m : List (List Nat × List Nat)) :
    m.length ≤ (encodePairs m).length := by
  induction m with
  | nil => simp [encodePairs]
  | cons p m ih =>
    rcases p with ⟨k, v⟩
    cases m with
    | nil => simp [encodePairs, encodePair]
    | cons p2 m' =>
      rw [show encodePairs ((k, v) :: p2 :: m') =
        encodePair k v ++ 44 :: encodePairs (p2 :: m') by simp [encodePairs]]
      simp only [List.length_append, List.length_cons, encodePair]
      simp at ih ⊢
      omega

theorem headNotDigit_44 (X : List Nat) : headNotDigit (44 :: X) := by
  simp [headNotDigit]

theorem parsePairs_enc (m : List (List Nat × List Nat)) :
    ∀ (fuel : Nat) (rest : List Nat), m ≠ [] → m.length < fuel →
    parsePairs fuel (encodePairs m ++ 125 :: rest) = some (m, rest) := by
  induction m with
  | nil => intro fuel rest h _; exact absurd rfl h
  | cons p m' ih =>
    rcases p with ⟨k, v⟩
    intro fuel rest _ hfuel
    obtain ⟨f, rfl⟩ : ∃ f, fuel = f + 1 := ⟨fuel - 1, by omega⟩
    cases m' with
    | nil =>
      rw [show encodePairs [(k, v)] ++ 125 :: rest =
        34 :: (escBytes k ++ 34 :: (58 :: (34 :: (escBytes v ++ 34 :: (125 :: rest))))) by
          simp [encodePairs, encodePair]]
      simp only [parsePairs, dropLit_one, parseStr_esc,
        skipWS_ge (by norm_num : (33 : Nat) ≤ 58), skipWS_ge (by norm_num : (33 : Nat) ≤ 34),
        skipWS_ge (by norm_num : (33 : Nat) ≤ 125)]
    | cons p2 m'' =>
      obtain ⟨t, ht⟩ := encodePairs_head p2 m''
      rw [show encodePairs ((k, v) :: p2 :: m'') ++ 125 :: rest =
        34 :: (escBytes k ++ 34 :: (58 :: (34 :: (escBytes v ++ 34 ::
          (44 :: (encodePairs (p2 :: m'') ++ 125 :: rest)))))) by
            simp [encodePairs, encodePair]]
      simp only [parsePairs, dropLit_one, parseStr_esc,
        skipWS_ge (by norm_num : (33 : Nat) ≤ 58), skipWS_ge (by norm_num : (33 : Nat) ≤ 34),
        skipWS_ge (by norm_num : (33 : Nat) ≤ 44)]
      rw [ht, List.cons_append, skipWS_ge (by norm_num : (33 : Nat) ≤ 34),
        ← List.cons_append, ← ht]
      rw [ih f rest (by simp) (by simp at hfuel ⊢; omega)]

theorem parseLinks_enc (m : List (List Nat × List Nat)) (rest : List Nat) :
    parseLinks (encodeLinks m ++ rest) = some (m, rest) := by
  cases m with
  | nil =>
    rw [show encodeLinks [] ++ rest = 123 :: (125 :: rest) by simp [encodeLinks, encodePairs]]
    simp only [parseLinks, dropLit_one, skipWS_ge (by norm_num : (33 : Nat) ≤ 125)]
  | cons p m' =>
    obtain ⟨t, ht⟩ := encodePairs_head p m'
    rw [show encodeLinks (p :: m') ++ rest = 123 :: (encodePairs (p :: m') ++ 125 :: rest) by
      simp [encodeLinks]]
    simp only [parseLinks, dropLit_one]
    rw [ht, List.cons_append, skipWS_ge (by norm_num : (33 : Nat) ≤ 34)]
    have hres : parsePairs ((34 :: (t ++ 125 :: rest)).length + 1)
        (34 :: (t ++ 125 :: rest)) = some (p :: m', rest) := by
      rw [← List.cons_append, ← ht]
      apply parsePairs_enc (p :: m') _ rest (by simp)
      have h1 := encodePairs_length (p :: m')
      simp at h1 ⊢
      omega
    split
    · next r heq => exact absurd heq (by simp)
    · exact hres

theorem skipWS_encodeInt (i : Int) (X : List Nat) :
    skipWS (encodeInt i ++ X) = encodeInt i ++ X := by
  obtain ⟨d, ds, hd, hdig⟩ := encodeInt_cons i
  rw [hd, List.cons_append, skipWS_ge (by omega : 33 ≤ d)]

theorem skipWS_encodeLinks (m : List (List Nat × List Nat)) (X : List Nat) :
    skipWS (encodeLinks m ++ X) = encodeLinks m ++ X := by
  rw [show encodeLinks m ++ X = 123 :: (encodePairs m ++ [125] ++ X) by simp [encodeLinks],
    skipWS_ge (by norm_num : (33 : Nat) ≤ 123)]

theorem parseRecordVal_enc (r : Record) (rest : List Nat) :
    parseRecordVal (encodeRecord r ++ rest) = some (r, rest) := by
  rw [show encodeRecord r ++ rest =
    123 :: (34 :: 105 :: 100 :: 34 :: (58 :: (encodeInt r.ID ++
      (44 :: (34 :: 108 :: 105 :: 110 :: 107 :: 115 :: 34 ::
        (58 :: (encodeLinks r.Links ++ 125 :: rest))))))) by simp [encodeRecord]]
  simp only [parseRecordVal, dropLit_one, dropLit_idlit, dropLit_linkslit,
    skipWS_ge (by norm_num : (33 : Nat) ≤ 34), skipWS_ge (by norm_num : (33 : Nat) ≤ 58),
    skipWS_ge (by norm_num : (33 : Nat) ≤ 44), skipWS_ge (by norm_num : (33 : Nat) ≤ 125),
    skipWS_encodeInt, skipWS_encodeLinks, parseInt_encode r.ID (headNotDigit_44 _),
    parseLinks_enc]

theorem unmarshal_enc (r : Record) : unmarshal (encodeRecord r) = some r := by
  unfold unmarshal
  rw [show skipWS (encodeRecord r) = encodeRecord r by
    rw [show encodeRecord r = encodeRecord r ++ [] by simp]
    rw [show encodeRecord r ++ [] = 123 :: (34 :: 105 :: 100 :: 34 :: (58 :: (encodeInt r.ID ++
      (44 :: (34 :: 108 :: 105 :: 110 :: 107 :: 115 :: 34 ::
        (58 :: (encodeLinks r.Links ++ 125 :: []))))))) by simp [encodeRecord]]
    rw [skipWS_ge (by norm_num : (33 : Nat) ≤ 123)]]
  rw [show encodeRecord r = encodeRecord r ++ [] by simp, parseRecordVal_enc]
  simp [skipWS]

theorem unmarshal_enc_nl (r : Record) : unmarshal (encodeRecord r ++ [10]) = some r := by
  unfold unmarshal
  rw [show skipWS (encodeRecord r ++ [10]) = encodeRecord r ++ [10] by
    rw [show encodeRecord r ++ [10] =
      123 :: (34 :: 105 :: 100 :: 34 :: (58 :: (encodeInt r.ID ++
        (44 :: (34 :: 108 :: 105 :: 110 :: 107 :: 115 :: 34 ::
          (58 :: (encodeLinks r.Links ++ 125 :: [10]))))))) by simp [encodeRecord]]
    rw [skipWS_ge (by norm_num : (33 : Nat) ≤ 123)]]
  rw [parseRecordVal_enc]
  simp [skipWS, isWS]

theorem encodePair_ne_ten (k v : List Nat) : 10 ∉ encodePair k v := by
  intro h
  simp [encodePair, escBytes_ne_ten k, escBytes_ne_ten v] at h

theorem encodePairs_ne_ten (m : List (List Nat × List Nat)) : 10 ∉ encodePairs m := by
  induction m with
  | nil => simp [encodePairs]
  | cons p m ih =>
    rcases p with ⟨k, v⟩
    cases m with
    | nil =>
      rw [show encodePairs [(k, v)] = encodePair k v by simp [encodePairs]]
      exact encodePair_ne_ten k v
    | cons p2 m' =>
      rw [show encodePairs ((k, v) :: p2 :: m') =
        encodePair k v ++ 44 :: encodePairs (p2 :: m') by simp [encodePairs]]
      intro h
      rcases List.mem_append.mp h with h | h
      · exact encodePair_ne_ten k v h
      · rcases List.mem_cons.mp h with h | h
        · omega
        · exact ih h

theorem encodeLinks_ne_ten (m : List (List Nat × List Nat)) : 10 ∉ encodeLinks m := by
  intro h
  rw [encodeLinks] at h
  rcases List.mem_cons.mp h with h | h
  · omega
  · rcases List.mem_append.mp h with h | h
    · exact encodePairs_ne_ten m h
    · simp at h

theorem encodeRecord_ne_ten (r : Record) : 10 ∉ encodeRecord r := by
  have h1 := encodeInt_ne_ten r.ID
  have h2 := encodeLinks_ne_ten r.Links
  intro h
  rw [encodeRecord] at h
  simp only [List.mem_cons, List.mem_append, List.mem_singleton] at h
  rcases h with h | h | h | h | h | h | h
  · omega
  · omega
  · omega
  · omega
  · omega
  · omega
  · rcases h with h | h
    · exact h1 h
    · rcases h with h | h | h | h | h | h | h | h | h | h
      · omega
      · omega
      · omega
      · omega
      · omega
      · omega
      · omega
      · omega
      · omega
      · rcases h with h | h
        · exact h2 h
        · simp at h

theorem encodeRecord_concat (r : Record) :
    encodeRecord r = (123 :: 34 :: 105 :: 100 :: 34 :: 58 :: (encodeInt r.ID ++
      44 :: 34 :: 108 :: 105 :: 110 :: 107 :: 115 :: 34 :: 58 :: encodeLinks r.Links)) ++
        [125] := by
  simp [encodeRecord]

theorem stripCR_enc (r : Record) : stripCR (encodeRecord r) = encodeRecord r := by
  rw [encodeRecord_concat]
  unfold stripCR
  rw [List.getLast?_concat]
  simp

theorem splitLinesAux_no_nl {E : List Nat} (hE : 10 ∉ E) (rest acc : List Nat) :
    splitLinesAux (E ++ 10 :: rest) acc = (acc.reverse ++ E) :: splitLinesAux rest [] := by
  induction E generalizing acc with
  | nil => simp [splitLinesAux]
  | cons e E ih =>
    have he : ¬e = 10 := by intro hc; exact hE (by simp [hc])
    rw [List.cons_append]
    rw [show splitLinesAux (e :: (E ++ 10 :: rest)) acc =
      splitLinesAux (E ++ 10 :: rest) (e :: acc) by simp [splitLinesAux, he]]
    rw [ih (fun hc => hE (by simp [hc]))]
    simp

theorem splitLines_line {E : List Nat} (hE : 10 ∉ E) (rest : List Nat) :
    splitLines (E ++ 10 :: rest) = E :: splitLines rest := by
  unfold splitLines
  rw [splitLinesAux_no_nl hE]
  simp

theorem mem_first_split {A : List Nat} (h : 10 ∈ A) :
    ∃ E A2, A = E ++ 10 :: A2 ∧ 10 ∉ E := by
  induction A with
  | nil => simp at h
  | cons a A ih =>
    by_cases ha : a = 10
    · exact ⟨[], A, by rw [ha]; rfl, by simp⟩
    · have hmem : 10 ∈ A := by
        rcases List.mem_cons.mp h with h | h
        · exact absurd h.symm ha
        · exact h
      obtain ⟨E, A2, hEq, hnE⟩ := ih hmem
      refine ⟨a :: E, A2, by rw [List.cons_append, hEq], ?_⟩
      intro hc
      rcases List.mem_cons.mp hc with hc | hc
      · exact ha hc.symm
      · exact hnE hc

theorem mem_last_split {A : List Nat} (h : 10 ∈ A) :
    ∃ E A2, A = E ++ 10 :: A2 ∧ 10 ∉ A2 := by
  induction A with
  | nil => simp at h
  | cons a A ih =>
    by_cases hA : 10 ∈ A
    · obtain ⟨E, A2, hEq, hn⟩ := ih hA
      exact ⟨a :: E, A2, by rw [List.cons_append, hEq], hn⟩
    · have ha : a = 10 := by
        rcases List.mem_cons.mp h with h | h
        · exact h.symm
        · exact absurd h hA
      exact ⟨[], A, by rw [ha]; rfl, hA⟩

theorem splitLines_append_term_aux (n : Nat) :
    ∀ (main : List Nat), main.length ≤ n → (∃ A, main = A ++ [10]) → ∀ rest,
      splitLines (main ++ rest) = splitLines main ++ splitLines rest := by
  induction n with
  | zero =>
    rintro main hlen ⟨A, hA⟩ rest
    subst hA
    simp at hlen
  | succ n ih =>
    rintro main hlen ⟨A, hA⟩ rest
    subst hA
    by_cases h10 : 10 ∈ A
    · obtain ⟨E, A2, hEq, h10E⟩ := mem_first_split h10
      subst hEq
      rw [show (E ++ 10 :: A2) ++ [10] ++ rest = E ++ 10 :: (A2 ++ [10] ++ rest) by simp]
      rw [splitLines_line h10E]
      rw [show (E ++ 10 :: A2) ++ [10] = E ++ 10 :: (A2 ++ [10]) by simp]
      rw [splitLines_line h10E]
      rw [ih (A2 ++ [10]) (by simp at hlen ⊢; omega) ⟨A2, rfl⟩ rest]
      simp
    · rw [show (A ++ [10]) ++ rest = A ++ 10 :: rest by simp]
      rw [splitLines_line h10]
      rw [show A ++ [10] = A ++ 10 :: ([] : List Nat) by simp]
      rw [splitLines_line h10]
      simp [splitLines, splitLinesAux]

theorem splitLines_append {main : List Nat}
    (h : main = [] ∨ ∃ A, main = A ++ [10]) (rest : List Nat) :
    splitLines (main ++ rest) = splitLines main ++ splitLines rest := by
  rcases h with h | h
  · subst h
    simp [splitLines, splitLinesAux]
  · exact splitLines_append_term_aux main.length main le_rfl h rest

theorem joinEnc_append (a b : List Record) : joinEnc (a ++ b) = joinEnc a ++ joinEnc b := by
  induction a with
  | nil => simp [joinEnc]
  | cons r a ih => simp [joinEnc, ih]

theorem joinEnc_term {rs : List Record} (h : rs ≠ []) : ∃ A, joinEnc rs = A ++ [10] := by
  induction rs with
  | nil => exact absurd rfl h
  | cons r rs ih =>
    cases rs with
    | nil => exact ⟨encodeRecord r, by simp [joinEnc]⟩
    | cons r2 rs' =>
      obtain ⟨A, hA⟩ := ih (by simp)
      refine ⟨encodeRecord r ++ 10 :: A, ?_⟩
      rw [show joinEnc (r :: r2 :: rs') = encodeRecord r ++ 10 :: joinEnc (r2 :: rs') by
        simp [joinEnc]]
      rw [hA]
      simp

theorem splitLines_joinEnc (rs : List Record) :
    splitLines (joinEnc rs) = rs.map encodeRecord := by
  induction rs with
  | nil => simp [joinEnc, splitLines, splitLinesAux]
  | cons r rs ih =>
    rw [show joinEnc (r :: rs) = encodeRecord r ++ 10 :: joinEnc rs by simp [joinEnc]]
    rw [splitLines_line (encodeRecord_ne_ten r), ih]
    simp

theorem joinEnc_cons (r : Record) (rs : List Record) :
    joinEnc (r :: rs) = encodeRecord r ++ 10 :: joinEnc rs := by
  simp [joinEnc]

theorem joinEnc_cons_ne_nil (r : Record) (rs : List Record) : joinEnc (r :: rs) ≠ [] := by
  rw [joinEnc_cons]
  simp

theorem skipWS_joinEnc_append (a : Record) (as : List Record) (y : List Nat) :
    skipWS (joinEnc (a :: as) ++ y) = joinEnc (a :: as) ++ y := by
  rw [show joinEnc (a :: as) ++ y =
    123 :: (34 :: 105 :: 100 :: 34 :: 58 :: (encodeInt a.ID ++
      44 :: 34 :: 108 :: 105 :: 110 :: 107 :: 115 :: 34 :: 58 ::
        (encodeLinks a.Links ++ [125])) ++ (10 :: joinEnc as ++ y)) by
          simp [joinEnc, encodeRecord]]
  rw [skipWS_ge (by norm_num : (33 : Nat) ≤ 123)]

theorem skipWS_joinEnc (rs : List Record) : skipWS (joinEnc rs) = joinEnc rs := by
  cases rs with
  | nil => rfl
  | cons r rs =>
    have := skipWS_joinEnc_append r rs []
    simpa using this

theorem joinEnc_length (rs : List Record) : rs.length ≤ (joinEnc rs).length := by
  induction rs with
  | nil => simp [joinEnc]
  | cons r rs ih =>
    rw [joinEnc_cons]
    simp
    omega

theorem decodeAllAux_joinEnc (rs : List Record) :
    ∀ (fuel : Nat) (l : List Nat), skipWS l = joinEnc rs → rs.length < fuel →
      decodeAllAux fuel l = some rs := by
  induction rs with
  | nil =>
    intro fuel l h hfuel
    obtain ⟨f, rfl⟩ : ∃ f, fuel = f + 1 := ⟨fuel - 1, by omega⟩
    simp only [decodeAllAux]
    rw [h]
    simp [joinEnc]
  | cons r rs ih =>
    intro fuel l h hfuel
    obtain ⟨f, rfl⟩ : ∃ f, fuel = f + 1 := ⟨fuel - 1, by omega⟩
    simp only [decodeAllAux]
    rw [h, if_neg (joinEnc_cons_ne_nil r rs), joinEnc_cons, parseRecordVal_enc]
    show (match decodeAllAux f (10 :: joinEnc rs) with
      | none => none
      | some rs2 => some (r :: rs2)) = some (r :: rs)
    rw [ih f (10 :: joinEnc rs)
      (by rw [skipWS_ws (by simp [isWS] : isWS 10 = true)]; exact skipWS_joinEnc rs)
      (by simp at hfuel ⊢; omega)]

theorem decodeAll_joinEnc (rs : List Record) : decodeAll (joinEnc rs) = some rs := by
  unfold decodeAll
  apply decodeAllAux_joinEnc rs _ _ (skipWS_joinEnc rs)
  have := joinEnc_length rs
  omega

theorem decodeAllAux_junk (junk : List Nat) (hj1 : skipWS junk ≠ [])
    (hj2 : parseRecordVal (skipWS junk) = none) (ts : List Record) :
    ∀ (fuel : Nat) (l : List Nat), skipWS l = joinEnc ts ++ junk →
      decodeAllAux fuel l = none := by
  induction ts generalizing junk with
  | nil =>
    intro fuel l h
    cases fuel with
    | zero => rfl
    | succ f =>
      rw [show joinEnc [] ++ junk = junk by simp [joinEnc]] at h
      have hjj : skipWS junk = junk := by
        rw [← h, skipWS_idem, h]
      simp only [decodeAllAux]
      rw [h, ← hjj, if_neg hj1, hj2]
  | cons t ts ih =>
    intro fuel l h
    cases fuel with
    | zero => rfl
    | succ f =>
      rw [show joinEnc (t :: ts) ++ junk = joinEnc (t :: ts) ++ junk by rfl] at h
      have hform : joinEnc (t :: ts) ++ junk =
          encodeRecord t ++ 10 :: (joinEnc ts ++ junk) := by
        rw [joinEnc_cons]
        simp
      simp only [decodeAllAux]
      rw [h, hform]
      rw [if_neg (by simp), parseRecordVal_enc]
      show (match decodeAllAux f (10 :: (joinEnc ts ++ junk)) with
        | none => none
        | some rs2 => some (t :: rs2)) = none
      have hnext : skipWS (10 :: (joinEnc ts ++ junk)) = skipWS (joinEnc ts ++ junk) :=
        skipWS_ws (by simp [isWS])
      cases ts with
      | nil =>
        rw [ih (skipWS junk) (by rw [skipWS_idem]; exact hj1)
          (by rw [skipWS_idem]; exact hj2) f _ ?_]
        rw [hnext]
        rw [show joinEnc ([] : List Record) ++ junk = junk by simp [joinEnc]]
        rw [show joinEnc ([] : List Record) ++ skipWS junk = skipWS junk by simp [joinEnc]]
      | cons t2 ts' =>
        rw [ih junk hj1 hj2 f _ ?_]
        rw [hnext]
        exact skipWS_joinEnc_append t2 ts' junk

theorem scanBackAux_ok (l : List Nat) (size : Nat) :
    ∀ (p : Nat) (acc : List Nat),
      scanBackAux (fun _ => false) l size p acc = some (scanBackP l size p acc) := by
  intro p
  induction p with
  | zero => intro acc; rfl
  | succ p ih =>
    intro acc
    simp only [scanBackAux, scanBackP, Bool.false_eq_true, if_false]
    split
    · rfl
    · exact ih _

theorem scanBackP_first (l : List Nat) (s : Nat) (acc : List Nat) :
    scanBackP l (s + 1) (s + 1) acc = scanBackP l (s + 1) s (l.getD s 0 :: acc) := by
  simp only [scanBackP]
  rw [if_neg (by simp)]

theorem scanBackP_stop (l : List Nat) (size q : Nat) (acc : List Nat)
    (h10 : l.getD q 0 = 10) (hq : q + 1 ≠ size) :
    scanBackP l size (q + 1) acc = acc := by
  simp only [scanBackP]
  rw [if_pos ⟨h10, hq⟩]

theorem scanBackP_walk (l : List Nat) (size : Nat) :
    ∀ (p q : Nat) (acc : List Nat), q ≤ p → p ≤ l.length →
      (∀ i, q ≤ i → i < p → l.getD i 0 ≠ 10) →
      scanBackP l size p acc = scanBackP l size q ((l.take p).drop q ++ acc) := by
  intro p
  induction p with
  | zero =>
    intro q acc hq _ _
    interval_cases q
    simp
  | succ p ih =>
    intro q acc hq hlen hmid
    by_cases hqp : q = p + 1
    · subst hqp
      rw [List.drop_eq_nil_of_le (by simp), List.nil_append]
    · have hq' : q ≤ p := by omega
      have hne : l.getD p 0 ≠ 10 := hmid p hq' (by omega)
      rw [show scanBackP l size (p + 1) acc = scanBackP l size p (l.getD p 0 :: acc) by
        simp only [scanBackP]
        rw [if_neg (fun hc => hne hc.1)]]
      rw [ih q (l.getD p 0 :: acc) hq' (by omega) (fun i hi1 hi2 => hmid i hi1 (by omega))]
      congr 1
      have hp : p < l.length := by omega
      rw [List.take_succ]
      rw [List.getElem?_eq_getElem hp]
      rw [List.drop_append_of_le_length (by simp; omega)]
      simp [List.getD_eq_getElem?_getD, List.getElem?_eq_getElem hp]

theorem afterLastNewline_go {M : List Nat} (h : 10 ∉ M) (acc : List Nat) :
    M.foldl (fun acc b => if b = 10 then [] else acc ++ [b]) acc = acc ++ M := by
  induction M generalizing acc with
  | nil => simp
  | cons m M ih =>
    have hm : ¬m = 10 := fun hc => h (by simp [hc])
    rw [List.foldl_cons, if_neg hm, ih (fun hc => h (by simp [hc]))]
    simp

theorem afterLastNewline_no {M : List Nat} (h : 10 ∉ M) : afterLastNewline M = M := by
  unfold afterLastNewline
  rw [afterLastNewline_go h]
  simp

theorem afterLastNewline_split (A : List Nat) {B : List Nat} (hB : 10 ∉ B) :
    afterLastNewline (A ++ 10 :: B) = B := by
  unfold afterLastNewline
  rw [List.foldl_append, List.foldl_cons, if_pos rfl, afterLastNewline_go hB]
  simp

theorem lastLineSpec_concat (M : List Nat) (c : Nat) :
    lastLineSpec (M ++ [c]) = afterLastNewline M ++ [c] := by
  unfold lastLineSpec
  rw [List.dropLast_concat]
  rw [show (M ++ [c]).length - 1 = M.length by simp]
  rw [List.drop_left]

theorem getD_concat_last (M : List Nat) (c : Nat) : (M ++ [c]).getD M.length 0 = c := by
  rw [List.getD_eq_getElem?_getD, List.getElem?_append_right le_rfl]
  simp

theorem getD_append_left {M : List Nat} {i : Nat} (h : i < M.length) (Y : List Nat) :
    (M ++ Y).getD i 0 = M.getD i 0 := by
  rw [List.getD_eq_getElem?_getD, List.getD_eq_getElem?_getD, List.getElem?_append_left h]

theorem scanBackP_concat (M : List Nat) (c : Nat) :
    scanBackP (M ++ [c]) (M.length + 1) (M.length + 1) [] = afterLastNewline M ++ [c] := by
  by_cases h10 : 10 ∈ M
  · obtain ⟨A, B, hAB, hB⟩ := mem_last_split h10
    rw [scanBackP_first, getD_concat_last]
    have hMlen : M.length = A.length + 1 + B.length := by
      rw [hAB]
      simp only [List.length_append, List.length_cons]
      omega
    rw [scanBackP_walk (M ++ [c]) (M.length + 1) M.length (A.length + 1)
      (c :: []) (by omega) (by simp) ?hmid]
    case hmid =>
      intro i hi1 hi2
      rw [getD_append_left (by omega)]
      have : M.getD i 0 ∈ B := by
        rw [hAB]
        rw [show A ++ 10 :: B = (A ++ [10]) ++ B by simp]
        rw [List.getD_eq_getElem?_getD, List.getElem?_append_right (by simp; omega)]
        have hlt : i - (A ++ [10]).length < B.length := by simp; omega
        rw [List.getElem?_eq_getElem hlt]
        exact List.getElem_mem hlt
      intro hc
      rw [hc] at this
      exact hB this
    rw [show scanBackP (M ++ [c]) (M.length + 1) (A.length + 1)
        (((M ++ [c]).take M.length).drop (A.length + 1) ++ [c]) =
        ((M ++ [c]).take M.length).drop (A.length + 1) ++ [c] from
      scanBackP_stop _ _ _ _ ?h10 (by omega)]
    case h10 =>
      rw [getD_append_left (by omega)]
      rw [hAB, show A ++ 10 :: B = (A ++ [10]) ++ B by simp]
      rw [List.getD_eq_getElem?_getD, List.getElem?_append_left (by simp)]
      rw [show A.length = (A ++ [10]).length - 1 by simp]
      rw [List.getElem?_append_right (by simp)]
      simp
    rw [List.take_left]
    rw [hAB, show A ++ 10 :: B = (A ++ [10]) ++ B by simp]
    rw [List.drop_left']
    · rw [show (A ++ [10]) ++ B = A ++ 10 :: B by simp, afterLastNewline_split A hB]
    · simp
  · rw [scanBackP_first, getD_concat_last]
    rw [scanBackP_walk (M ++ [c]) (M.length + 1) M.length 0 (c :: []) (by omega) (by simp)
      ?hmid2]
    case hmid2 =>
      intro i _ hi2
      rw [getD_append_left (by omega)]
      intro hc
      apply h10
      have hlt : i < M.length := by omega
      rw [List.getD_eq_getElem?_getD, List.getElem?_eq_getElem hlt] at hc
      simp at hc
      rw [← hc]
      exact List.getElem_mem hlt
    rw [List.take_left, List.drop_zero]
    show M ++ [c] = afterLastNewline M ++ [c]
    rw [afterLastNewline_no h10]

theorem scanReads_le (l : List Nat) (size : Nat) :
    ∀ (p : Nat) (acc : List Nat),
      scanReadsAux l size p + acc.length ≤ (scanBackP l size p acc).length + 1 := by
  intro p
  induction p with
  | zero =>
    intro acc
    simp [scanReadsAux, scanBackP]
  | succ p ih =>
    intro acc
    by_cases h : l.getD p 0 = 10 ∧ p + 1 ≠ size
    · simp only [scanReadsAux, scanBackP, if_pos h]
      omega
    · simp only [scanReadsAux, scanBackP, if_neg h]
      have := ih (l.getD p 0 :: acc)
      simp only [List.length_cons] at this
      omega

theorem scanBackP_full {l : List Nat} (h : l ≠ []) :
    scanBackP l l.length l.length [] = lastLineSpec l := by
  have hsplit := List.dropLast_append_getLast h
  rw [← hsplit]
  rw [show (l.dropLast ++ [l.getLast h]).length = l.dropLast.length + 1 by simp]
  rw [scanBackP_concat, lastLineSpec_concat]

theorem loadLast_spec_eq (s : FS) : LoadLastLinksNum s = recoverLastIdSpec s.main := by
  unfold LoadLastLinksNum LoadLastLinksNumFrom recoverLastIdSpec
  rw [show okFs.openFails = false from rfl, show okFs.statFails = false from rfl,
    show okFs.readFails = (fun _ => false) from rfl]
  simp only [Bool.false_eq_true, if_false]
  by_cases hm : s.main.length = 0
  · rw [if_pos hm, if_pos hm]
  · rw [if_neg hm, if_neg hm]
    have hne : s.main ≠ [] := by
      intro hc
      rw [hc] at hm
      simp at hm
    rw [scanBackAux_ok, scanBackP_full hne]

theorem findRecord_eq (id : Int) (toks : List (List Nat)) :
    findRecord id toks = (toks.filterMap unmarshal).find? (fun r => r.ID == id) := by
  induction toks with
  | nil => simp [findRecord]
  | cons t ts ih =>
    simp only [findRecord]
    cases hu : unmarshal t with
    | none => simp [List.filterMap_cons, hu, ih]
    | some rec =>
      by_cases hid : rec.ID = id
      · simp [List.filterMap_cons, hu, hid, List.find?_cons]
      · simp only [List.filterMap_cons, hu]
        rw [if_neg hid]
        rw [List.find?_cons_of_neg _ (by simp [hid])]
        exact ih

theorem findRecord_skip {t : List Nat} (hu : unmarshal t = none) (id : Int)
    (X Y : List (List Nat)) :
    findRecord id (X ++ t :: Y) = findRecord id (X ++ Y) := by
  induction X with
  | nil =>
    simp only [List.nil_append, findRecord, hu]
  | cons x X ih =>
    simp only [List.cons_append, findRecord]
    cases hx : unmarshal x with
    | none => exact ih
    | some rec =>
      by_cases hid : rec.ID = id
      · simp [hid]
      · simp only [if_neg hid]
        exact ih

theorem findRecord_none_iff (id : Int) (toks : List (List Nat)) :
    findRecord id toks = none ↔ ∀ r ∈ toks.filterMap unmarshal, r.ID ≠ id := by
  rw [findRecord_eq, List.find?_eq_none]
  constructor
  · intro h r hr hid
    have := h r hr
    simp [hid] at this
  · intro h r hr
    simp [h r hr]

theorem findRecord_append_none {id : Int} {X : List (List Nat)}
    (hX : findRecord id X = none) (Y : List (List Nat)) :
    findRecord id (X ++ Y) = findRecord id Y := by
  induction X with
  | nil => simp
  | cons x X ih =>
    simp only [List.cons_append, findRecord] at hX ⊢
    cases hx : unmarshal x with
    | none =>
      rw [hx] at hX
      exact ih hX
    | some rec =>
      simp only [hx] at hX ⊢
      by_cases hid : rec.ID = id
      · rw [if_pos hid] at hX
        exact absurd hX (by simp)
      · rw [if_neg hid] at hX ⊢
        exact ih hX

theorem joinEnc_single (r : Record) : joinEnc [r] = encodeRecord r ++ [10] := by
  simp [joinEnc]

theorem afterLastNewline_joinEnc_enc (rs0 : List Record) (rN : Record) :
    afterLastNewline (joinEnc rs0 ++ encodeRecord rN) = encodeRecord rN := by
  cases rs0 with
  | nil =>
    rw [show joinEnc [] ++ encodeRecord rN = encodeRecord rN by simp [joinEnc]]
    exact afterLastNewline_no (encodeRecord_ne_ten rN)
  | cons r0 rs0' =>
    obtain ⟨A, hA⟩ := joinEnc_term (show r0 :: rs0' ≠ [] by simp)
    rw [hA]
    rw [show (A ++ [10]) ++ encodeRecord rN = A ++ 10 :: encodeRecord rN by simp]
    exact afterLastNewline_split A (encodeRecord_ne_ten rN)

theorem lastLineSpec_joinEnc_concat (rs0 : List Record) (rN : Record) :
    lastLineSpec (joinEnc (rs0 ++ [rN])) = encodeRecord rN ++ [10] := by
  rw [joinEnc_append, joinEnc_single]
  rw [show joinEnc rs0 ++ (encodeRecord rN ++ [10]) =
    (joinEnc rs0 ++ encodeRecord rN) ++ [10] by simp]
  rw [lastLineSpec_concat, afterLastNewline_joinEnc_enc]

theorem loadLast_joinEnc_concat (rs0 : List Record) (rN : Record) (t : List Nat) :
    LoadLastLinksNum { main := joinEnc (rs0 ++ [rN]), temp := t } = rN.ID := by
  rw [loadLast_spec_eq]
  unfold recoverLastIdSpec
  have hne : joinEnc (rs0 ++ [rN]) ≠ [] := by
    rw [joinEnc_append, joinEnc_single]
    simp
  rw [if_neg (by simp [List.length_eq_zero]; exact hne)]
  show (match unmarshal (lastLineSpec (joinEnc (rs0 ++ [rN]))) with
    | none => 0
    | some rec => rec.ID) = rN.ID
  rw [lastLineSpec_joinEnc_concat, unmarshal_enc_nl]

theorem foldl_save_main (rs : List Record) :
    ∀ fs : FS, (rs.foldl SaveRecord fs).main = fs.main ++ joinEnc rs := by
  induction rs with
  | nil => intro fs; simp [joinEnc]
  | cons r rs ih =>
    intro fs
    rw [List.foldl_cons, ih]
    simp [SaveRecord, joinEnc_cons]

theorem foldl_save_temp (rs : List Record) :
    ∀ fs : FS, (rs.foldl SaveRecord fs).temp = fs.temp := by
  induction rs with
  | nil => intro fs; rfl
  | cons r rs ih =>
    intro fs
    rw [List.foldl_cons, ih]
    rfl

theorem foldl_applyOp_main (ops : List Op) :
    ∀ fs : FS, (∀ o ∈ ops, isSaveOrGet o = true) →
      (ops.foldl applyOp fs).main = fs.main ++ joinEnc (savesOf ops) := by
  induction ops with
  | nil => intro fs _; simp [savesOf, joinEnc]
  | cons o ops ih =>
    intro fs h
    have ho := h o (List.mem_cons_self o ops)
    have hrest : ∀ o2 ∈ ops, isSaveOrGet o2 = true :=
      fun o2 ho2 => h o2 (List.mem_cons_of_mem o ho2)
    cases o with
    | save r =>
      rw [List.foldl_cons]
      rw [ih (applyOp fs (Op.save r)) hrest]
      rw [show savesOf (Op.save r :: ops) = r :: savesOf ops by simp [savesOf]]
      simp [applyOp, SaveRecord, joinEnc_cons]
    | get id =>
      rw [List.foldl_cons]
      rw [ih (applyOp fs (Op.get id)) hrest]
      rw [show savesOf (Op.get id :: ops) = savesOf ops by simp [savesOf]]
      rfl
    | stage r => simp [isSaveOrGet] at ho
    | loadStaged => simp [isSaveOrGet] at ho
    | clearStaged => simp [isSaveOrGet] at ho
    | recoverLastId => simp [isSaveOrGet] at ho

/-- C1: for every sequence of `save` calls with strictly increasing distinct
IDs applied to an initially empty record log, with arbitrary `get` calls
interleaved, `LoadLastLinksNum` returns the last saved ID, for every number
of saves and every link map. -/
theorem c1_monotonic_recovery (ops : List Op) (rs : List Record) (fs : FS)
    (hmain : fs.main = [])
    (hops : savesOf ops = rs)
    (honly : ∀ o ∈ ops, isSaveOrGet o = true)
    (hne : rs ≠ [])
    (hinc : List.Chain' (fun a b => a.ID < b.ID) rs) :
    LoadLastLinksNum (ops.foldl applyOp fs) = (rs.getLast hne).ID := by
  rcases List.eq_nil_or_concat rs with hcon | ⟨rs0, rN, hcon⟩
  · exact absurd hcon hne
  · rw [List.concat_eq_append] at hcon
    have hm : (ops.foldl applyOp fs).main = joinEnc (rs0 ++ [rN]) := by
      rw [foldl_applyOp_main ops fs honly, hmain, hops, hcon]
      simp
    have hlast : rs.getLast hne = rN := by
      have h1 : rs.getLast? = some rN := by rw [hcon]; exact List.getLast?_concat rs0
      have h2 : rs.getLast? = some (rs.getLast hne) := List.getLast?_eq_getLast rs hne
      rw [h1] at h2
      exact (Option.some.injEq _ _).mp h2.symm
    rw [hlast]
    rcases hfold : ops.foldl applyOp fs with ⟨m, t⟩
    rw [hfold] at hm
    simp only at hm
    rw [hm]
    exact loadLast_joinEnc_concat rs0 rN t

/-- Witness for C1 at a concrete input: two saves with IDs 1 < 2 and an
interleaved get; recovery returns 2. -/
theorem c1_monotonic_recovery_witness :
    LoadLastLinksNum (List.foldl applyOp { main := [], temp := [] }
      [Op.save { ID := 1, Links := [] }, Op.get 5, Op.save { ID := 2, Links := [] }]) = 2 :=
  c1_monotonic_recovery
    [Op.save { ID := 1, Links := [] }, Op.get 5, Op.save { ID := 2, Links := [] }]
    [{ ID := 1, Links := [] }, { ID := 2, Links := [] }]
    { main := [], temp := [] } rfl (by decide) (by decide) (by decide)
    (by refine List.chain'_cons.mpr ⟨by norm_num, List.chain'_singleton _⟩)

/-- C2: saving a record whose ID no decodable line of the record log
already carries, then getting that ID, returns the record itself; the
link map may be empty, multi-entry, or contain non-ASCII bytes.  The log
is newline-terminated or empty, as every log written by `SaveRecord`
is. -/
theorem c2_round_trip (fs : FS) (r : Record)
    (hterm : fs.main = [] ∨ ∃ A, fs.main = A ++ [10])
    (huniq : ∀ r2 ∈ linesDecoded fs.main, r2.ID ≠ r.ID) :
    GetRecord (SaveRecord fs r) r.ID = Except.ok r := by
  have htoks : scanTokens (SaveRecord fs r).main =
      scanTokens fs.main ++ [encodeRecord r] := by
    show scanTokens (fs.main ++ encodeRecord r ++ [10]) = _
    rw [List.append_assoc, show encodeRecord r ++ [10] = encodeRecord r ++ 10 :: [] by simp]
    unfold scanTokens
    rw [splitLines_append hterm, splitLines_line (encodeRecord_ne_ten r)]
    simp [splitLines, splitLinesAux, stripCR_enc]
  unfold GetRecord
  rw [htoks]
  have hnone : findRecord r.ID (scanTokens fs.main) = none :=
    (findRecord_none_iff r.ID (scanTokens fs.main)).mpr huniq
  rw [findRecord_append_none hnone]
  simp only [findRecord, unmarshal_enc, if_pos rfl]
  rfl

/-- Witness for C2 at a concrete input: a record with a non-ASCII URL
saved into an empty log and read back. -/
theorem c2_round_trip_witness :
    GetRecord (SaveRecord { main := [], temp := [] }
      { ID := 7, Links := [([104, 116, 116, 112, 58, 47, 47, 208, 176], [111, 107])] }) 7 =
    Except.ok { ID := 7, Links := [([104, 116, 116, 112, 58, 47, 47, 208, 176], [111, 107])] } :=
  c2_round_trip { main := [], temp := [] }
    { ID := 7, Links := [([104, 116, 116, 112, 58, 47, 47, 208, 176], [111, 107])] }
    (Or.inl rfl) (by intro r2 h2; simp [linesDecoded, scanTokens, splitLines, splitLinesAux] at h2)

/-- C3: `LoadLastLinksNum` always returns an integer (its type) and
returns 0 when the open fails, when the stat fails, when the log is
empty, when any backward read fails, and when the accumulated last line
does not decode — so a caller cannot tell an empty log from an
unreadable one. -/
theorem c3_recover_never_fails (orc : FsOracle) (s : FS) :
    (orc.openFails = true → LoadLastLinksNumFrom orc s = 0) ∧
    (orc.statFails = true → LoadLastLinksNumFrom orc s = 0) ∧
    (s.main = [] → LoadLastLinksNumFrom orc s = 0) ∧
    (scanBackAux orc.readFails s.main s.main.length s.main.length [] = none →
      LoadLastLinksNumFrom orc s = 0) ∧
    (∀ ll, scanBackAux orc.readFails s.main s.main.length s.main.length [] = some ll →
      unmarshal ll = none → LoadLastLinksNumFrom orc s = 0) := by
  unfold LoadLastLinksNumFrom
  refine ⟨fun h => by rw [if_pos h], ?_, ?_, ?_, ?_⟩
  · intro h
    by_cases ho : orc.openFails
    · rw [if_pos ho]
    · rw [if_neg ho, if_pos h]
  · intro h
    by_cases ho : orc.openFails
    · rw [if_pos ho]
    · rw [if_neg ho]
      by_cases hs : orc.statFails
      · rw [if_pos hs]
      · rw [if_neg hs, if_pos (by rw [h]; rfl)]
  · intro h
    by_cases ho : orc.openFails
    · rw [if_pos ho]
    · rw [if_neg ho]
      by_cases hs : orc.statFails
      · rw [if_pos hs]
      · rw [if_neg hs]
        by_cases hz : s.main.length = 0
        · rw [if_pos hz]
        · rw [if_neg hz, h]
  · intro ll hll hu
    by_cases ho : orc.openFails
    · rw [if_pos ho]
    · rw [if_neg ho]
      by_cases hs : orc.statFails
      · rw [if_pos hs]
      · rw [if_neg hs]
        by_cases hz : s.main.length = 0
        · rw [if_pos hz]
        · rw [if_neg hz]
          simp only [hll, hu]

/-- Witness for C3 at concrete inputs: a failing open, an empty log, and
a failing read each yield 0. -/
theorem c3_recover_never_fails_witness :
    LoadLastLinksNumFrom
      { openFails := true, statFails := false, readFails := fun _ => false }
      { main := [123], temp := [] } = 0 ∧
    LoadLastLinksNumFrom okFs { main := [], temp := [] } = 0 ∧
    LoadLastLinksNumFrom
      { openFails := false, statFails := false, readFails := fun _ => true }
      { main := [123], temp := [] } = 0 :=
  ⟨(c3_recover_never_fails _ _).1 rfl,
   (c3_recover_never_fails _ _).2.2.1 rfl,
   (c3_recover_never_fails _ _).2.2.2.1 rfl⟩

/-- C4: decode failures are handled asymmetrically: `GetRecord` skips an
undecodable line wherever it sits and scans on, while `LoadTempRecords`
fails the whole load, returning no records, when the staging log holds
any undecodable tail after its decodable records. -/
theorem c4_decode_asymmetry :
    (∀ (A B bad t : List Nat) (id : Int),
      (A = [] ∨ ∃ A0, A = A0 ++ [10]) → 10 ∉ bad → unmarshal (stripCR bad) = none →
      GetRecord { main := A ++ bad ++ 10 :: B, temp := t } id =
        GetRecord { main := A ++ B, temp := t } id) ∧
    (∀ (ts : List Record) (junk m : List Nat),
      skipWS junk ≠ [] → parseRecordVal (skipWS junk) = none →
      LoadTempRecords { main := m, temp := joinEnc ts ++ junk } = none) := by
  constructor
  · intro A B bad t id hA hbad hu
    unfold GetRecord
    have h1 : scanTokens (A ++ bad ++ 10 :: B) =
        scanTokens A ++ stripCR bad :: scanTokens B := by
      unfold scanTokens
      rw [List.append_assoc, splitLines_append hA, splitLines_line hbad]
      simp
    have h2 : scanTokens (A ++ B) = scanTokens A ++ scanTokens B := by
      unfold scanTokens
      rw [splitLines_append hA]
      simp
    rw [h1, h2, findRecord_skip hu]
  · intro ts junk m hj1 hj2
    show decodeAll (joinEnc ts ++ junk) = none
    unfold decodeAll
    cases ts with
    | nil =>
      apply decodeAllAux_junk (skipWS junk) (by rw [skipWS_idem]; exact hj1)
        (by rw [skipWS_idem]; exact hj2) []
      rw [show joinEnc ([] : List Record) ++ junk = junk by simp [joinEnc]]
      rw [show joinEnc ([] : List Record) ++ skipWS junk = skipWS junk by simp [joinEnc]]
    | cons t2 ts' =>
      apply decodeAllAux_junk junk hj1 hj2 (t2 :: ts')
      exact skipWS_joinEnc_append t2 ts' junk

/-- Witness for C4 at concrete inputs: an undecodable line between two
log states does not change the lookup, and an undecodable staging byte
fails the whole load. -/
theorem c4_decode_asymmetry_witness :
    GetRecord { main := [] ++ [120] ++ 10 :: [], temp := [] } 1 =
      GetRecord { main := [] ++ [], temp := [] } 1 ∧
    LoadTempRecords { main := [], temp := joinEnc [] ++ [120] } = none :=
  ⟨c4_decode_asymmetry.1 [] [] [120] [] 1 (Or.inl rfl) (by decide) (by decide),
   c4_decode_asymmetry.2 [] [120] [] (by decide) (by decide)⟩

/-- C5: for every log content and every id, `GetRecord` returns the first
decodable line's record whose ID matches, in file order, and returns a
not-found error — never a crash or an empty success — when no decodable
line matches, in particular on an empty log. -/
theorem c5_first_match_or_not_found (s : FS) (id : Int) :
    GetRecord s id =
      (match (linesDecoded s.main).find? (fun r => r.ID == id) with
       | some rec => Except.ok rec
       | none => Except.error (GetError.notFound id)) ∧
    GetRecord { main := [], temp := s.temp } id = Except.error (GetError.notFound id) := by
  constructor
  · unfold GetRecord linesDecoded
    rw [findRecord_eq]
  · rfl

/-- C6: `LoadTempRecords` has no file-state effect, so two successive
loads with no intervening mutation return the same result; and after
staging `r` onto a well-formed staging log the load returns the staged
records in file order, ending with — hence containing — `r`. -/
theorem c6_staging_idempotent (fs : FS) (r : Record) :
    (LoadTempRecords (applyOp (SaveTempRecord fs r) Op.loadStaged) =
      LoadTempRecords (SaveTempRecord fs r)) ∧
    (∀ ts, fs.temp = joinEnc ts →
      LoadTempRecords (SaveTempRecord fs r) = some (ts ++ [r]) ∧ r ∈ ts ++ [r]) := by
  constructor
  · rfl
  · intro ts hts
    constructor
    · show decodeAll (fs.temp ++ encodeRecord r ++ [10]) = some (ts ++ [r])
      rw [hts, List.append_assoc, show encodeRecord r ++ [10] = joinEnc [r] by
        simp [joinEnc]]
      rw [← joinEnc_append]
      exact decodeAll_joinEnc (ts ++ [r])
    · simp

/-- Witness for C6 at a concrete input: staging a record onto an empty
staging log and loading it back. -/
theorem c6_staging_idempotent_witness :
    LoadTempRecords (SaveTempRecord { main := [], temp := [] } { ID := 3, Links := [] }) =
      some ([] ++ [{ ID := 3, Links := [] }]) ∧
    ({ ID := 3, Links := [] } : Record) ∈ [] ++ [({ ID := 3, Links := [] } : Record)] :=
  (c6_staging_idempotent { main := [], temp := [] } { ID := 3, Links := [] }).2 [] rfl

/-- C7: clearing the staging log truncates it to zero length, after which
a load returns an empty sequence and no error; more generally a load on
an empty staging file returns an empty sequence. -/
theorem c7_clear_semantics (fs : FS) :
    LoadTempRecords (ClearTempFile fs) = some [] ∧
    (ClearTempFile fs).temp = [] ∧
    (∀ s2 : FS, s2.temp = [] → LoadTempRecords s2 = some []) := by
  refine ⟨?_, rfl, ?_⟩
  · show decodeAll [] = some []
    exact decodeAll_joinEnc []
  · intro s2 h2
    show decodeAll s2.temp = some []
    rw [h2]
    exact decodeAll_joinEnc []

/-- Witness for C7 at a concrete input: load after clear on a nonempty
staging log. -/
theorem c7_clear_semantics_witness :
    LoadTempRecords (ClearTempFile { main := [], temp := [120] }) = some [] ∧
    LoadTempRecords { main := [], temp := [] } = some [] :=
  ⟨(c7_clear_semantics { main := [], temp := [120] }).1,
   (c7_clear_semantics { main := [], temp := [] }).2.2 { main := [], temp := [] } rfl⟩

/-- C8: `LoadLastLinksNum` implements the spec's tail scan — stat, return
0 on an empty file, otherwise accumulate bytes backward from the final
byte up to the first newline that is not the final byte (or the start of
file) and decode the accumulated last line — and the number of single-byte
reads it performs is at most the length of that last line plus one,
independent of the file size. -/
theorem c8_tail_scan_algorithm :
    (∀ s : FS, LoadLastLinksNum s = recoverLastIdSpec s.main) ∧
    (∀ l : List Nat, l ≠ [] →
      scanReadsAux l l.length l.length ≤ (lastLineSpec l).length + 1) := by
  constructor
  · exact loadLast_spec_eq
  · intro l hne
    have h := scanReads_le l l.length l.length []
    rw [scanBackP_full hne] at h
    simpa using h

/-- Witness for C8 at a concrete input: a one-line file. -/
theorem c8_tail_scan_algorithm_witness :
    LoadLastLinksNum { main := [123], temp := [] } = recoverLastIdSpec [123] ∧
    scanReadsAux [123] 1 1 ≤ (lastLineSpec [123]).length + 1 :=
  ⟨c8_tail_scan_algorithm.1 { main := [123], temp := [] },
   c8_tail_scan_algorithm.2 [123] (by decide)⟩

/-- C9: the mutex serializes the facade, so a run of `M` concurrent
`save` callers is modelled as the saves executing atomically in some
arbitrary order, a permutation of the requests; after all complete,
every line of the main log decodes to one of the saved records and the
IDs present are exactly the saved IDs. -/
theorem c9_concurrent_saves (rs rsp : List Record) (hperm : rsp.Perm rs)
    (hdist : (rs.map Record.ID).Nodup) (fs : FS) (hmain : fs.main = []) :
    ((splitLines (rsp.foldl SaveRecord fs).main).map (fun ln => unmarshal (stripCR ln)) =
      rsp.map (fun r => some r)) ∧
    ((((splitLines (rsp.foldl SaveRecord fs).main).map stripCR).filterMap unmarshal).map
      Record.ID).Perm (rs.map Record.ID) := by
  have hm : (rsp.foldl SaveRecord fs).main = joinEnc rsp := by
    rw [foldl_save_main, hmain]
    simp
  rw [hm, splitLines_joinEnc]
  constructor
  · rw [List.map_map]
    apply List.map_congr_left
    intro r _
    show unmarshal (stripCR (encodeRecord r)) = some r
    rw [stripCR_enc, unmarshal_enc]
  · have h1 : (rsp.map encodeRecord).map stripCR = rsp.map encodeRecord := by
      rw [List.map_map]
      apply List.map_congr_left
      intro r _
      exact stripCR_enc r
    rw [h1]
    have h2 : (rsp.map encodeRecord).filterMap unmarshal = rsp := by
      rw [List.filterMap_map]
      rw [show (unmarshal ∘ encodeRecord) = some by funext r; exact unmarshal_enc r]
      exact List.filterMap_some rsp
    rw [h2]
    exact hperm.map Record.ID

/-- Witness for C9 at a concrete input: two saves executing in the
reverse of their request order. -/
theorem c9_concurrent_saves_witness :
    ((splitLines (List.foldl SaveRecord { main := [], temp := [] }
        [{ ID := 2, Links := [] }, { ID := 1, Links := [] }]).main).map
      (fun ln => unmarshal (stripCR ln)) =
      [some { ID := 2, Links := [] }, some { ID := 1, Links := [] }]) ∧
    ((((splitLines (List.foldl SaveRecord { main := [], temp := [] }
        [{ ID := 2, Links := [] }, { ID := 1, Links := [] }]).main).map
      stripCR).filterMap unmarshal).map Record.ID).Perm [1, 2] :=
  c9_concurrent_saves [{ ID := 1, Links := [] }, { ID := 2, Links := [] }]
    [{ ID := 2, Links := [] }, { ID := 1, Links := [] }]
    (by decide) (by decide) { main := [], temp := [] } rfl

/-- C10: the two logs are mutually framed: staging, loading staged
records, and clearing the staging log leave the record log unchanged,
and saving, point lookup, and ID recovery leave the staging log
unchanged — the read-only operations change no file at all. -/
theorem c10_mutual_frame (fs : FS) (r : Record) (id : Int) :
    (SaveTempRecord fs r).main = fs.main ∧
    (ClearTempFile fs).main = fs.main ∧
    applyOp fs Op.loadStaged = fs ∧
    (SaveRecord fs r).temp = fs.temp ∧
    applyOp fs (Op.get id) = fs ∧
    applyOp fs Op.recoverLastId = fs :=
  ⟨rfl, rfl, rfl, rfl, rfl, rfl⟩
